import Mathlib

/-!
Shallow embedding of the phm package manager core, translated from the Go
sources internal/pkg/manager.go, internal/pkg/types.go and
internal/repo/repo.go, together with proofs of the specification claims
about version comparison, package name parsing, dependency resolution,
catalog lookup, installation and removal.

Machine integers are modelled as unbounded Int with the explicit range
check that strconv.Atoi performs; Go maps keyed by package name are
modelled as association lists looked up by name; fallible operations
return Except or are threaded through an explicit state.
-/

namespace Phm

/-- One catalog entry (internal/pkg/types.go, struct Package). Fields that no
modelled operation reads (description, platform, provides, checksum, sizes,
urls) are omitted; they influence none of the claimed behaviours. -/
structure Package where
  Name : String
  Version : String
  Revision : Int := 0
  Depends : List String := []
  deriving DecidableEq, Repr

/-- An installed package record (internal/pkg/types.go, struct
InstalledPackage): a Package plus installation metadata. The InstalledAt
timestamp is omitted (never read by any modelled operation). -/
structure InstalledPackage extends Package where
  InstalledFiles : List String := []
  InstallSlot : String := ""
  Pinned : Bool := false
  deriving DecidableEq, Repr

/-- The in-memory installed map of pkg.Manager (internal/pkg/manager.go):
a Go map from package name to record, keyed by the Name field of the stored
record. Modelled as a list of records looked up by name; records never share
a name because insertion replaces the record of the same name. -/
structure Manager where
  installed : List InstalledPackage := []
  deriving DecidableEq, Repr

/-- Map lookup m.installed[name] (GetInstalled, manager.go line 119). -/
def GetInstalled (m : Manager) (name : String) : Option InstalledPackage :=
  m.installed.find? (fun p => p.Name == name)

/-- A parsed dependency constraint (manager.go, struct Dependency). -/
structure Dependency where
  Name : String
  Constraint : String := ""
  Version : String := ""
  deriving DecidableEq, Repr

/- Go strings helpers used by the manager, modelled on the character list
of a String. -/

/-- strings.Split s "." for the one-byte separator: Go semantics, so the
empty string yields one empty field. -/
def splitOnChar (sep : Char) : List Char → List (List Char)
  | [] => [[]]
  | c :: cs =>
    if c = sep then [] :: splitOnChar sep cs
    else
      match splitOnChar sep cs with
      | [] => [[c]]
      | p :: ps => (c :: p) :: ps

/-- strings.Split on a one-character separator, on String. -/
def goSplit (s : String) (sep : Char) : List String :=
  (splitOnChar sep s.data).map (fun l => ⟨l⟩)

/-- Decimal value of a digit string. -/
def digitsToNat (ds : List Char) : Nat :=
  ds.foldl (fun n c => n * 10 + (c.toNat - ('0').toNat)) 0

/-- strconv.Atoi: optional sign, one or more ASCII digits, value within the
64-bit int range; anything else is an error (none). -/
def goAtoi (s : String) : Option Int :=
  let core : List Char → Bool → Option Int := fun ds neg =>
    if ds = [] then none
    else if ¬ ds.all Char.isDigit then none
    else
      let v : Int := if neg then -(digitsToNat ds : Int) else (digitsToNat ds : Int)
      if v < -(2 ^ 63) ∨ (2 ^ 63 - 1 : Int) < v then none else some v
  match s.data with
  | '+' :: ds => core ds false
  | '-' :: ds => core ds true
  | ds => core ds false

/-- The numeric value the compareVersions loop assigns to one component:
strconv.Atoi on success, 0 on any parse error (manager.go lines 245-255). -/
def verNum (p : String) : Int :=
  (goAtoi p).getD 0

/-- The tail of the compareVersions loop once the first list is exhausted:
the remaining components of the second list are compared against implicit
zeros. -/
def cmpZeroR : List Int → Int
  | [] => 0
  | y :: ys => if (0 : Int) < y then -1 else if y < 0 then 1 else cmpZeroR ys

/-- The tail of the compareVersions loop once the second list is exhausted. -/
def cmpZeroL : List Int → Int
  | [] => 0
  | x :: xs => if x < 0 then -1 else if (0 : Int) < x then 1 else cmpZeroL xs

/-- The index loop of compareVersions (manager.go lines 244-263): walk both
component lists in step up to the longer length, treating a missing component
as 0, and return at the first difference. -/
def cmpParts : List Int → List Int → Int
  | [], ys => cmpZeroR ys
  | x :: xs, [] => cmpZeroL (x :: xs)
  | x :: xs, y :: ys => if x < y then -1 else if y < x then 1 else cmpParts xs ys

/-- compareVersions (manager.go lines 235-266): split both strings on ".",
parse each component with strconv.Atoi (errors count as 0), compare
component-wise with implicit zero padding of the shorter list. -/
def compareVersions (a b : String) : Int :=
  cmpParts ((goSplit a '.').map verNum) ((goSplit b '.').map verNum)

/-- Exported wrapper CompareVersions (manager.go line 563). -/
def CompareVersions (a b : String) : Int :=
  compareVersions a b

/-- versionSatisfies (manager.go lines 211-232). The Manager receiver is
unused in the source and dropped here. -/
def versionSatisfies (version constraint required : String) : Bool :=
  if constraint = "" ∨ required = "" then true
  else
    let cmp := compareVersions version required
    if constraint = ">=" then decide (0 ≤ cmp)
    else if constraint = ">" then decide (0 < cmp)
    else if constraint = "<=" then decide (cmp ≤ 0)
    else if constraint = "<" then decide (cmp < 0)
    else if constraint = "=" ∨ constraint = "==" then decide (cmp = 0)
    else true

/- ParseDependency (manager.go lines 141-156). The Go code matches the
anchored regular expression
  ^([a-zA-Z0-9._-]+)\s*\(([<>=]+)\s*([0-9.]+)\)$
against strings.TrimSpace(dep). Every repeated class in that pattern is
disjoint from the character that must follow it, so greedy matching is
deterministic and equal to maximal munch; the parser below implements
exactly that. -/

/-- The class [a-zA-Z0-9._-] (ASCII letters and digits, as in Go regexp). -/
def isNameChar (c : Char) : Bool :=
  c.isAlpha || c.isDigit || c = '.' || c = '_' || c = '-'

/-- The Go regexp class \s, which is exactly [\t\n\f\r ]. -/
def isRegexSpace (c : Char) : Bool :=
  c = '\t' || c = '\n' || c = '\x0c' || c = '\r' || c = ' '

/-- The class [<>=]. -/
def isOpChar (c : Char) : Bool :=
  c = '<' || c = '>' || c = '='

/-- The class [0-9.]. -/
def isVerChar (c : Char) : Bool :=
  c.isDigit || c = '.'

/-- unicode.IsSpace restricted to the characters that can occur here: the
ASCII whitespace characters plus NEL and NBSP. (The other Unicode space
code points of category Zs are not modelled; no modelled input contains
them.) -/
def isGoSpace (c : Char) : Bool :=
  c = '\t' || c = '\n' || c = '\x0b' || c = '\x0c' || c = '\r' || c = ' ' ||
  c = '\x85' || c = '\xa0'

/-- strings.TrimSpace. -/
def goTrimSpace (s : String) : String :=
  ⟨((s.data.dropWhile isGoSpace).reverse.dropWhile isGoSpace).reverse⟩

/-- The anchored dependency pattern, as a whole-string match over the
trimmed character list: name, optional spaces, literal parenthesis,
operator, optional spaces, version, closing parenthesis, end. Returns the
three capture groups. -/
def depPatternMatch (s : List Char) : Option (String × String × String) :=
  let name := s.takeWhile isNameChar
  let r1 := (s.dropWhile isNameChar).dropWhile isRegexSpace
  match r1 with
  | '(' :: r2 =>
    let op := r2.takeWhile isOpChar
    let r3 := (r2.dropWhile isOpChar).dropWhile isRegexSpace
    let ver := r3.takeWhile isVerChar
    let r4 := r3.dropWhile isVerChar
    if name ≠ [] ∧ op ≠ [] ∧ ver ≠ [] ∧ r4 = [')'] then
      some (⟨name⟩, ⟨op⟩, ⟨ver⟩)
    else none
  | _ => none

/-- ParseDependency (manager.go lines 141-156): on a full regex match of the
trimmed string, the three capture groups; otherwise the whole original
string as the name with empty constraint and version. -/
def ParseDependency (dep : String) : Dependency :=
  match depPatternMatch (goTrimSpace dep).data with
  | some (n, c, v) => { Name := n, Constraint := c, Version := v }
  | none => { Name := dep }

/- ParsePackageName (internal/pkg/types.go lines 93-142). The two anchored
patterns
  ^php(\d+)\.(\d+)\.(\d+)-(.+)$   and   ^php(\d+)\.(\d+)-(.+)$
again have deterministic greedy matching: every \d+ is followed by a
non-digit literal. The dot in (.+) does not match a newline in Go regexp,
and $ only matches at the end of the text. -/

/-- Parsed version information (types.go, struct VersionInfo). -/
structure VersionInfo where
  MinorVersion : String
  PatchVersion : String
  IsPinned : Bool
  PackageType : String
  deriving DecidableEq, Repr

/-- Take a maximal nonempty digit run, or fail. -/
def takeDigits1 (s : List Char) : Option (List Char × List Char) :=
  match s.takeWhile Char.isDigit with
  | [] => none
  | ds => some (ds, s.dropWhile Char.isDigit)

/-- Whole-string match of ^php(\d+)\.(\d+)\.(\d+)-(.+)$ . -/
def patchPatternMatch (s : List Char) : Option (String × String × String × String) :=
  match s with
  | 'p' :: 'h' :: 'p' :: r0 =>
    match takeDigits1 r0 with
    | some (d1, '.' :: r1) =>
      match takeDigits1 r1 with
      | some (d2, '.' :: r2) =>
        match takeDigits1 r2 with
        | some (d3, '-' :: suf) =>
          if suf ≠ [] ∧ ('\n') ∉ suf then some (⟨d1⟩, ⟨d2⟩, ⟨d3⟩, ⟨suf⟩) else none
        | _ => none
      | _ => none
    | _ => none
  | _ => none

/-- Whole-string match of ^php(\d+)\.(\d+)-(.+)$ . -/
def minorPatternMatch (s : List Char) : Option (String × String × String) :=
  match s with
  | 'p' :: 'h' :: 'p' :: r0 =>
    match takeDigits1 r0 with
    | some (d1, '.' :: r1) =>
      match takeDigits1 r1 with
      | some (d2, '-' :: suf) =>
        if suf ≠ [] ∧ ('\n') ∉ suf then some (⟨d1⟩, ⟨d2⟩, ⟨suf⟩) else none
      | _ => none
    | _ => none
  | _ => none

/-- ParsePackageName (types.go lines 104-126): try the pinned patch pattern
first, then the tracked minor pattern, else none. -/
def ParsePackageName (name : String) : Option VersionInfo :=
  match patchPatternMatch name.data with
  | some (d1, d2, d3, suf) =>
    some { MinorVersion := d1 ++ "." ++ d2
           PatchVersion := d1 ++ "." ++ d2 ++ "." ++ d3
           IsPinned := true
           PackageType := suf }
  | none =>
    match minorPatternMatch name.data with
    | some (d1, d2, suf) =>
      some { MinorVersion := d1 ++ "." ++ d2
             PatchVersion := ""
             IsPinned := false
             PackageType := suf }
    | none => none

/-- GetInstallSlot (types.go lines 131-136). -/
def VersionInfo.GetInstallSlot (v : VersionInfo) : String :=
  if v.IsPinned then v.PatchVersion else v.MinorVersion

/-- GetCanonicalName (types.go lines 140-142). -/
def VersionInfo.GetCanonicalName (v : VersionInfo) : String :=
  "php" ++ v.MinorVersion ++ "-" ++ v.PackageType

/- ResolveDependencies (manager.go lines 159-208). The Go function uses a
nested recursive closure over a resolved set and an output slice; a
dependency cycle would recurse without bound. The embedding adds an explicit
fuel counter: a catalog with n entries can never produce a call chain longer
than n + 1 when the dependency graph is acyclic, so the wrapper passes
length + 1 fuel, and fuel exhaustion (which models the divergence of the Go
original) is reported as a distinguished error. -/

/-- The resolver state: the resolved name set (a Go map used as a set) and
the output list. The resolved list always holds the output names in reverse
order of their insertion. -/
structure RState where
  resolved : List String := []
  result : List Package := []
  deriving DecidableEq, Repr

/-- First catalog entry of the given name (manager.go lines 180-186). -/
def findPkg (available : List Package) (name : String) : Option Package :=
  available.find? (fun q => q.Name == name)

/-- The dependency loop of the resolve closure (manager.go lines 169-196):
for each constraint string, skip it when an installed package of that name
satisfies it, otherwise look the name up in the catalog, failing when it is
absent and recursing (through go) when it is present. -/
def resolveDeps (m : Manager) (available : List Package)
    (go : Package → RState → Except String RState) :
    List String → RState → Except String RState
  | [], st => .ok st
  | depStr :: rest, st =>
    let dep := ParseDependency depStr
    let step : Except String RState :=
      match GetInstalled m dep.Name with
      | some inst =>
        if versionSatisfies inst.Version dep.Constraint dep.Version then .ok st
        else
          match findPkg available dep.Name with
          | none => .error ("dependency not found: " ++ dep.Name)
          | some q => go q st
      | none =>
        match findPkg available dep.Name with
        | none => .error ("dependency not found: " ++ dep.Name)
        | some q => go q st
    match step with
    | .error e => .error e
    | .ok st1 => resolveDeps m available go rest st1

/-- The recursive resolve closure (manager.go lines 163-201), with fuel. -/
def resolveGo (m : Manager) (available : List Package) :
    Nat → Package → RState → Except String RState
  | 0, _, _ => .error "dependency cycle"
  | fuel + 1, p, st =>
    if st.resolved.contains p.Name then .ok st
    else
      match resolveDeps m available (resolveGo m available fuel) p.Depends st with
      | .error e => .error e
      | .ok st1 => .ok { resolved := p.Name :: st1.resolved, result := st1.result ++ [p] }

/-- ResolveDependencies (manager.go lines 159-208). -/
def ResolveDependencies (m : Manager) (pkg : Package) (available : List Package) :
    Except String (List Package) :=
  match resolveGo m available (available.length + 1) pkg {} with
  | .error e => .error e
  | .ok st => .ok st.result

/-- CheckUpgrade (manager.go lines 515-531). -/
def CheckUpgrade (m : Manager) (name availableVersion : String) : String :=
  match GetInstalled m name with
  | none => ""
  | some installed =>
    if installed.Pinned then ""
    else if 0 < compareVersions availableVersion installed.Version then availableVersion
    else ""

/-- One iteration of the GetPackage scan (repo.go lines 124-130): adopt an
entry of the wanted name when nothing is held yet or when its version
compares strictly greater than the held one. -/
def gpStep (name : String) (latest : Option Package) (q : Package) : Option Package :=
  if q.Name == name then
    match latest with
    | none => some q
    | some l => if 0 < CompareVersions q.Version l.Version then some q else some l
  else latest

/-- GetPackage (internal/repo/repo.go lines 121-132): linear scan of the
current platform package list, keeping the entry whose version compares
strictly greater than the best so far. -/
def GetPackage (packages : List Package) (name : String) : Option Package :=
  packages.foldl (gpStep name) none

/- InstallWithOptions (manager.go lines 286-421), saveInstalled (lines
424-436) and Remove (lines 439-458). The file system is modelled as the set
of absolute paths present on disk (file contents and modes are never read
back by any claimed behaviour, so they are not tracked); the ledger
directory is one record per package keyed by the Name field; each fallible
external write carries an explicit success flag. Directory creation cannot
abort an install in the source (a failed os.MkdirAll falls back to the
privileged helper whose result is discarded), so it has no failure flag.
Placeholder substitution in configuration files only transforms file
contents and is therefore not modelled. -/

/-- strings.HasPrefix. -/
def goHasPre (s pre : String) : Bool :=
  s.data.take pre.data.length == pre.data

/-- Options for installation (manager.go, struct InstallOptions). -/
structure InstallOptions where
  InstallSlot : String := ""
  Pinned : Bool := false
  CustomName : String := ""
  deriving DecidableEq, Repr

/-- One entry of the package archive, in archive order. -/
inductive TarEntry where
  /-- The pkginfo.json entry; the payload is the result of JSON
  unmarshalling its data, none meaning a parse error. -/
  | manifest (parsed : Option Package)
  /-- Any other entry: header name, directory flag, and whether writing its
  destination file succeeds (directly or through the privileged helper). -/
  | item (name : String) (isDir : Bool) (writeOk : Bool)
  deriving DecidableEq, Repr

/-- The host state an install or removal mutates: the file system, the
on-disk ledger directory, and the Manager with its in-memory map. -/
structure Sys where
  fs : List String := []
  ledger : List InstalledPackage := []
  mgr : Manager := {}
  deriving DecidableEq, Repr

/-- Write one record file into the ledger directory or the in-memory map:
replaces any previous record of the same name. -/
def insertRecord (l : List InstalledPackage) (r : InstalledPackage) : List InstalledPackage :=
  r :: l.filter (fun q => !(q.Name == r.Name))

/-- Point lookup of a record list by name. -/
def lookupRecord (l : List InstalledPackage) (name : String) : Option InstalledPackage :=
  l.find? (fun q => q.Name == name)

/-- Mark a path as present on disk. -/
def insertPath (fs : List String) (p : String) : List String :=
  if fs.contains p then fs else fs ++ [p]

/-- Source slot detection from the manifest version (manager.go lines
324-327): when the version has at least two dot components the slot becomes
the first two joined by a dot, otherwise the previous value is kept. -/
def updateSourceSlot (prev version : String) : String :=
  match goSplit version '.' with
  | p0 :: p1 :: _ => p0 ++ "." ++ p1
  | _ => prev

/-- Destination path of one file entry (manager.go lines 336-346): the
path after files/ made absolute, with the source-slot directory under
/opt/php/ rewritten to the requested slot when a different slot was
requested and a source slot is known. -/
def computeDestPath (optSlot sourceSlot relPath : String) : String :=
  let destPath := "/" ++ relPath
  if optSlot ≠ "" ∧ sourceSlot ≠ "" ∧ optSlot ≠ sourceSlot then
    let oldPre := "/opt/php/" ++ sourceSlot ++ "/"
    let newPre := "/opt/php/" ++ optSlot ++ "/"
    if goHasPre destPath oldPre then newPre ++ (⟨destPath.data.drop oldPre.data.length⟩ : String)
    else destPath
  else destPath

/-- The tar reading loop of InstallWithOptions (manager.go lines 306-390),
threading the manifest data, the detected source slot, the accumulated
installed file list and the file system. An unparseable manifest or a
failed file write aborts with an error, keeping the files already
written. -/
def installLoop (opts : InstallOptions) :
    List TarEntry → Package → String → List String → List String →
    Except (String × List String) (Package × String × List String × List String)
  | [], info, slot, files, fs => .ok (info, slot, files, fs)
  | .manifest parsed :: rest, _, slot, files, fs =>
    match parsed with
    | none => .error ("failed to parse pkginfo", fs)
    | some info => installLoop opts rest info (updateSourceSlot slot info.Version) files fs
  | .item name isDir writeOk :: rest, info, slot, files, fs =>
    if goHasPre name "files/" then
      let rel : String := ⟨name.data.drop ("files/").data.length⟩
      if rel = "" then installLoop opts rest info slot files fs
      else
        let dest := computeDestPath opts.InstallSlot slot rel
        if isDir then installLoop opts rest info slot files fs
        else if writeOk then
          installLoop opts rest info slot (files ++ [dest]) (insertPath fs dest)
        else .error ("failed to install " ++ dest, fs)
    else installLoop opts rest info slot files fs

/-- InstallWithOptions (manager.go lines 286-421): run the tar loop, pick
the actual install slot and ledger name, build the record, persist it
(saveInstalled, whose write success is the saveOk flag) and only then
register it in the in-memory map. The mutated Sys is returned in every
outcome. -/
def InstallWithOptions (saveOk : Bool) (entries : List TarEntry)
    (opts : InstallOptions) (s : Sys) : Sys × Except String InstalledPackage :=
  match installLoop opts entries { Name := "", Version := "" } "" [] s.fs with
  | .error (e, fs1) => ({ s with fs := fs1 }, .error e)
  | .ok (info, sourceSlot, files, fs1) =>
    let installSlot := if opts.InstallSlot ≠ "" then opts.InstallSlot else sourceSlot
    let pkgName := if opts.CustomName ≠ "" then opts.CustomName else info.Name
    let record : InstalledPackage :=
      { toPackage := { info with Name := pkgName }
        InstalledFiles := files
        InstallSlot := installSlot
        Pinned := opts.Pinned }
    if saveOk then
      ({ fs := fs1
         ledger := insertRecord s.ledger record
         mgr := { installed := insertRecord s.mgr.installed record } }, .ok record)
    else ({ s with fs := fs1 }, .error "failed to save installed package record")

/-- Remove (manager.go lines 439-458): fail when the name has no record,
otherwise delete every recorded file (a failed os.Remove falls back to the
privileged rm -f, modelled as always effective), delete the ledger record
file and the in-memory entry. -/
def Remove (s : Sys) (name : String) : Sys × Option String :=
  match GetInstalled s.mgr name with
  | none => (s, some ("package not installed: " ++ name))
  | some record =>
    ({ fs := s.fs.filter (fun f => !(record.InstalledFiles.contains f))
       ledger := s.ledger.filter (fun q => !(q.Name == name))
       mgr := { installed := s.mgr.installed.filter (fun q => !(q.Name == name)) } },
     none)

/- Shared concrete data for the specification scenarios. -/

/-- Catalog entry php8.5-common at 1.0 with no dependencies. -/
def phpCommon : Package := { Name := "php8.5-common", Version := "1.0" }

/-- Catalog entry php8.5-cli at 1.0 depending on php8.5-common at 1.0 or
newer. -/
def phpCli : Package :=
  { Name := "php8.5-cli", Version := "1.0", Depends := ["php8.5-common (>= 1.0)"] }

/-- Catalog entry php8.5-redis at 2.0 depending on php8.5-cli at 1.0 or
newer. -/
def phpRedis : Package :=
  { Name := "php8.5-redis", Version := "2.0", Depends := ["php8.5-cli (>= 1.0)"] }

/-- The three-entry scenario catalog. -/
def demoCatalog : List Package := [phpCommon, phpCli, phpRedis]

/-- php8.5-cli installed at 1.0 in tracked slot 8.5, not pinned. -/
def cliInstalled : InstalledPackage :=
  { toPackage := { Name := "php8.5-cli", Version := "1.0" }, InstallSlot := "8.5" }

/-- The same record, pinned. -/
def cliPinnedInstalled : InstalledPackage :=
  { toPackage := { Name := "php8.5-cli", Version := "1.0" }, InstallSlot := "8.5",
    Pinned := true }

/-- C3: parsePackageName yields minor 8.5, no patch, unpinned, suffix cli,
slot 8.5 and canonical name php8.5-cli for php8.5-cli; minor 8.5, patch
8.5.1, pinned, suffix cli, slot 8.5.1 and canonical name php8.5-cli for
php8.5.1-cli; and none for redis-server, which has no leading version
component. -/
theorem c3_parsePackageName_roundtrip :
    ParsePackageName "php8.5-cli" =
      some { MinorVersion := "8.5", PatchVersion := "", IsPinned := false,
             PackageType := "cli" } ∧
    (ParsePackageName "php8.5-cli").map VersionInfo.GetInstallSlot = some "8.5" ∧
    (ParsePackageName "php8.5-cli").map VersionInfo.GetCanonicalName = some "php8.5-cli" ∧
    ParsePackageName "php8.5.1-cli" =
      some { MinorVersion := "8.5", PatchVersion := "8.5.1", IsPinned := true,
             PackageType := "cli" } ∧
    (ParsePackageName "php8.5.1-cli").map VersionInfo.GetInstallSlot = some "8.5.1" ∧
    (ParsePackageName "php8.5.1-cli").map VersionInfo.GetCanonicalName = some "php8.5-cli" ∧
    ParsePackageName "redis-server" = none :=
  ⟨rfl, rfl, rfl, rfl, rfl, rfl, rfl⟩

/-- C7: checkUpgrade returns the available version exactly when an installed
record exists, is not pinned, and the available version compares strictly
greater than the installed one; a pinned record always yields the empty
string, and so does an uninstalled name. -/
theorem c7_checkUpgrade_spec (m : Manager) (name v : String) :
    (∀ p, GetInstalled m name = some p → p.Pinned = false →
      0 < compareVersions v p.Version → CheckUpgrade m name v = v) ∧
    (∀ p, GetInstalled m name = some p → p.Pinned = true → CheckUpgrade m name v = "") ∧
    (GetInstalled m name = none → CheckUpgrade m name v = "") ∧
    (∀ p, GetInstalled m name = some p → p.Pinned = false →
      ¬ 0 < compareVersions v p.Version → CheckUpgrade m name v = "") := by
  refine ⟨?_, ?_, ?_, ?_⟩
  · intro p hp hpin hcmp
    simp [CheckUpgrade, hp, hpin, hcmp]
  · intro p hp hpin
    simp [CheckUpgrade, hp, hpin]
  · intro hp
    simp [CheckUpgrade, hp]
  · intro p hp hpin hcmp
    simp [CheckUpgrade, hp, hpin, hcmp]

/-- Witness for C7: the spec scenario, php8.5-cli installed at 1.0 and the
catalog at 1.1. -/
theorem c7_checkUpgrade_witness :
    CheckUpgrade { installed := [cliInstalled] } "php8.5-cli" "1.1" = "1.1" ∧
    CheckUpgrade { installed := [cliPinnedInstalled] } "php8.5-cli" "1.1" = "" ∧
    CheckUpgrade {} "php8.5-cli" "1.1" = "" :=
  ⟨(c7_checkUpgrade_spec { installed := [cliInstalled] } "php8.5-cli" "1.1").1
      cliInstalled rfl rfl (by decide),
   (c7_checkUpgrade_spec { installed := [cliPinnedInstalled] } "php8.5-cli" "1.1").2.1
      cliPinnedInstalled rfl rfl,
   (c7_checkUpgrade_spec {} "php8.5-cli" "1.1").2.2.1 rfl⟩

/-- C10: a dependency string that does not match the pattern
name (operator version) comes back whole as the target name with empty
operator and version; versionSatisfies accepts everything when the operator
or required version is empty, and for every operator outside the six
recognised ones, so such dependencies are satisfied by any installed
version. -/
theorem c10_parseDependency_fallback (dep v c r : String) :
    (depPatternMatch (goTrimSpace dep).data = none →
      ParseDependency dep = { Name := dep, Constraint := "", Version := "" }) ∧
    (c = "" ∨ r = "" → versionSatisfies v c r = true) ∧
    (c ∉ ([">=", ">", "<=", "<", "=", "=="] : List String) →
      versionSatisfies v c r = true) ∧
    (depPatternMatch (goTrimSpace dep).data = none →
      versionSatisfies v (ParseDependency dep).Constraint (ParseDependency dep).Version
        = true) := by
  have hfall : depPatternMatch (goTrimSpace dep).data = none →
      ParseDependency dep = { Name := dep, Constraint := "", Version := "" } := by
    intro h
    simp [ParseDependency, h]
  refine ⟨hfall, ?_, ?_, ?_⟩
  · intro h
    simp [versionSatisfies, h]
  · intro h
    simp only [List.mem_cons, List.mem_singleton, not_or] at h
    obtain ⟨h1, h2, h3, h4, h5, h6⟩ := h
    by_cases h0 : c = "" ∨ r = ""
    · simp [versionSatisfies, h0]
    · simp [versionSatisfies, h0, h1, h2, h3, h4, h5, h6]
  · intro h
    rw [hfall h]
    simp [versionSatisfies]

/-- Witness for C10: redis-server has no constraint part. -/
theorem c10_parseDependency_witness :
    ParseDependency "redis-server" =
      { Name := "redis-server", Constraint := "", Version := "" } ∧
    versionSatisfies "1.0" "" "" = true ∧
    versionSatisfies "1.0" "~>" "2.0" = true ∧
    versionSatisfies "1.0" (ParseDependency "redis-server").Constraint
      (ParseDependency "redis-server").Version = true :=
  ⟨(c10_parseDependency_fallback "redis-server" "1.0" "" "").1 (by decide),
   (c10_parseDependency_fallback "redis-server" "1.0" "" "").2.1 (Or.inl rfl),
   (c10_parseDependency_fallback "redis-server" "1.0" "~>" "2.0").2.2.1 (by decide),
   (c10_parseDependency_fallback "redis-server" "1.0" "" "").2.2.2 (by decide)⟩

/-- C5: the source slot is the first two dot components of the manifest
version; a file entry whose absolute destination lies under the
/opt/php/sourceSlot/ directory is rewritten to /opt/php/requestedSlot/ when
a different slot was requested, and an entry not under that directory keeps
its destination unchanged. -/
theorem c5_install_path_rewrite (prev v p0 p1 : String) (restc : List String)
    (slot src rest rel : String) :
    (goSplit v '.' = p0 :: p1 :: restc → updateSourceSlot prev v = p0 ++ "." ++ p1) ∧
    (slot ≠ "" → src ≠ "" → slot ≠ src →
      computeDestPath slot src ("opt/php/" ++ src ++ "/" ++ rest) =
        "/opt/php/" ++ slot ++ "/" ++ rest) ∧
    (goHasPre ("/" ++ rel) ("/opt/php/" ++ src ++ "/") = false →
      computeDestPath slot src rel = "/" ++ rel) := by
  refine ⟨?_, ?_, ?_⟩
  · intro h
    simp [updateSourceSlot, h]
  · intro h1 h2 h3
    have hdata : ("/" ++ ("opt/php/" ++ src ++ "/" ++ rest)).data =
        ("/opt/php/" ++ src ++ "/").data ++ rest.data := by
      simp [String.data_append, List.append_assoc]
    have hpre : goHasPre ("/" ++ ("opt/php/" ++ src ++ "/" ++ rest))
        ("/opt/php/" ++ src ++ "/") = true := by
      simp only [goHasPre]
      rw [hdata, List.take_left]
      simp
    simp only [computeDestPath]
    rw [if_pos ⟨h1, h2, h3⟩, hpre]
    simp only [if_true]
    rw [hdata, List.drop_left]
  · intro h
    simp only [computeDestPath]
    by_cases hc : slot ≠ "" ∧ src ≠ "" ∧ slot ≠ src
    · rw [if_pos hc, h]
      simp
    · rw [if_neg hc]

/-- Witness for C5 at a concrete archive: version 8.5.0 gives source slot
8.5, and installing into requested slot 8.5.1 rewrites the binary path but
leaves a path outside /opt/php untouched. -/
theorem c5_install_path_rewrite_witness :
    updateSourceSlot "" "8.5.0" = "8" ++ "." ++ "5" ∧
    computeDestPath "8.5.1" "8.5" ("opt/php/" ++ "8.5" ++ "/" ++ "bin/php") =
      "/opt/php/" ++ "8.5.1" ++ "/" ++ "bin/php" ∧
    computeDestPath "8.5.1" "8.5" "usr/local/bin/php" = "/" ++ "usr/local/bin/php" :=
  ⟨(c5_install_path_rewrite "" "8.5.0" "8" "5" ["0"] "8.5.1" "8.5" "bin/php"
      "usr/local/bin/php").1 (by decide),
   (c5_install_path_rewrite "" "8.5.0" "8" "5" ["0"] "8.5.1" "8.5" "bin/php"
      "usr/local/bin/php").2.1 (by decide) (by decide) (by decide),
   (c5_install_path_rewrite "" "8.5.0" "8" "5" ["0"] "8.5.1" "8.5" "bin/php"
      "usr/local/bin/php").2.2 (by decide)⟩

/- C4: compareVersions is a total order. The comparison value of two version
strings is cmpParts on the padded component lists; the lemmas below show the
result is always one of -1, 0, 1 (so exactly one of the three outcomes holds
for any pair), that it is 0 on equal strings, and that strict comparison is
transitive. -/

/-- cmpZeroR only produces -1, 0 or 1. -/
theorem cmpZeroR_values (l : List Int) : cmpZeroR l = -1 ∨ cmpZeroR l = 0 ∨ cmpZeroR l = 1 := by
  induction l with
  | nil => simp [cmpZeroR]
  | cons x xs ih =>
    simp only [cmpZeroR]
    split_ifs <;> simp [ih]

/-- cmpZeroL only produces -1, 0 or 1. -/
theorem cmpZeroL_values (l : List Int) : cmpZeroL l = -1 ∨ cmpZeroL l = 0 ∨ cmpZeroL l = 1 := by
  induction l with
  | nil => simp [cmpZeroL]
  | cons x xs ih =>
    simp only [cmpZeroL]
    split_ifs <;> simp [ih]

/-- cmpParts only produces -1, 0 or 1. -/
theorem cmpParts_values (xs ys : List Int) :
    cmpParts xs ys = -1 ∨ cmpParts xs ys = 0 ∨ cmpParts xs ys = 1 := by
  induction xs generalizing ys with
  | nil => simpa [cmpParts] using cmpZeroR_values ys
  | cons x xs ih =>
    cases ys with
    | nil => simpa [cmpParts] using cmpZeroL_values (x :: xs)
    | cons y ys =>
      simp only [cmpParts]
      split_ifs <;> simp [ih]

/-- Comparing a component list against itself gives 0. -/
theorem cmpParts_self (l : List Int) : cmpParts l l = 0 := by
  induction l with
  | nil => rfl
  | cons x xs ih => simp [cmpParts, ih]

/-- A trailing zero component on the right does not change the outcome. -/
theorem cmpZeroR_append_zero (l : List Int) : cmpZeroR (l ++ [0]) = cmpZeroR l := by
  induction l with
  | nil => simp [cmpZeroR]
  | cons x xs ih => simp [cmpZeroR, ih]

/-- A trailing zero component on the left does not change the outcome. -/
theorem cmpZeroL_append_zero (l : List Int) : cmpZeroL (l ++ [0]) = cmpZeroL l := by
  induction l with
  | nil => simp [cmpZeroL]
  | cons x xs ih => simp [cmpZeroL, ih]

/-- cmpParts against the empty list is the one-sided comparison. -/
theorem cmpParts_nil_right (xs : List Int) : cmpParts xs [] = cmpZeroL xs := by
  cases xs <;> rfl

/-- Appending one zero to the second list does not change cmpParts. -/
theorem cmpParts_append_zero_right (xs ys : List Int) :
    cmpParts xs (ys ++ [0]) = cmpParts xs ys := by
  induction xs generalizing ys with
  | nil => simp [cmpParts, cmpZeroR_append_zero]
  | cons x xs ih =>
    cases ys with
    | nil => simp [cmpParts, cmpZeroL, cmpParts_nil_right]
    | cons y ys => simp [cmpParts, ih]

/-- Appending one zero to the first list does not change cmpParts. -/
theorem cmpParts_append_zero_left (xs ys : List Int) :
    cmpParts (xs ++ [0]) ys = cmpParts xs ys := by
  induction xs generalizing ys with
  | nil =>
    cases ys with
    | nil => rfl
    | cons y ys => simp [cmpParts, cmpZeroR]
  | cons x xs ih =>
    cases ys with
    | nil =>
      show cmpParts (x :: (xs ++ [0])) [] = cmpParts (x :: xs) []
      rw [cmpParts_nil_right, cmpParts_nil_right]
      exact cmpZeroL_append_zero (x :: xs)
    | cons y ys => simp [cmpParts, ih]

/-- Zero padding of the second list does not change cmpParts. -/
theorem cmpParts_pad_right (xs ys : List Int) (k : Nat) :
    cmpParts xs (ys ++ List.replicate k 0) = cmpParts xs ys := by
  induction k generalizing ys with
  | zero => simp
  | succ k ih =>
    have h : ys ++ List.replicate (k + 1) 0 = (ys ++ [0]) ++ List.replicate k 0 := by
      simp [List.replicate_succ, List.append_assoc]
    rw [h, ih, cmpParts_append_zero_right]

/-- Zero padding of the first list does not change cmpParts. -/
theorem cmpParts_pad_left (xs ys : List Int) (k : Nat) :
    cmpParts (xs ++ List.replicate k 0) ys = cmpParts xs ys := by
  induction k generalizing xs with
  | zero => simp
  | succ k ih =>
    have h : xs ++ List.replicate (k + 1) 0 = (xs ++ [0]) ++ List.replicate k 0 := by
      simp [List.replicate_succ, List.append_assoc]
    rw [h, ih, cmpParts_append_zero_left]

/-- Strict transitivity of cmpParts on lists of equal length. -/
theorem cmpParts_trans_aux :
    ∀ xs ys zs : List Int, xs.length = ys.length → ys.length = zs.length →
    cmpParts xs ys = -1 → cmpParts ys zs = -1 → cmpParts xs zs = -1 := by
  intro xs
  induction xs with
  | nil =>
    intro ys zs h1 _ hab _
    cases ys with
    | nil => exact absurd hab (by decide)
    | cons y ys => simp at h1
  | cons x xs ih =>
    intro ys zs h1 h2 hab hbc
    cases ys with
    | nil => simp at h1
    | cons y ys =>
      cases zs with
      | nil => simp at h2
      | cons z zs =>
        simp only [cmpParts] at hab hbc ⊢
        by_cases hxy : x < y
        · by_cases hyz : y < z
          · simp [lt_trans hxy hyz]
          · rw [if_neg hyz] at hbc
            by_cases hzy : z < y
            · rw [if_pos hzy] at hbc; exact absurd hbc (by decide)
            · have heq : y = z := le_antisymm (not_lt.mp hzy) (not_lt.mp hyz)
              simp [heq ▸ hxy]
        · rw [if_neg hxy] at hab
          by_cases hyx : y < x
          · rw [if_pos hyx] at hab; exact absurd hab (by decide)
          · rw [if_neg hyx] at hab
            have hxyeq : x = y := le_antisymm (not_lt.mp hyx) (not_lt.mp hxy)
            by_cases hyz : y < z
            · simp [hxyeq ▸ hyz]
            · rw [if_neg hyz] at hbc
              by_cases hzy : z < y
              · rw [if_pos hzy] at hbc; exact absurd hbc (by decide)
              · rw [if_neg hzy] at hbc
                have hyzeq : y = z := le_antisymm (not_lt.mp hzy) (not_lt.mp hyz)
                have hxz : ¬ x < z := by rw [hxyeq, hyzeq]; exact lt_irrefl z
                have hzx : ¬ z < x := by rw [hxyeq, hyzeq]; exact lt_irrefl z
                rw [if_neg hxz, if_neg hzx]
                exact ih ys zs (by simpa using h1) (by simpa using h2) hab hbc

/-- Strict transitivity of compareVersions, via zero padding to a common
length. -/
theorem compareVersions_trans (a b c : String) :
    compareVersions a b = -1 → compareVersions b c = -1 → compareVersions a c = -1 := by
  intro hab hbc
  simp only [compareVersions] at hab hbc ⊢
  set la := (goSplit a '.').map verNum with hla
  set lb := (goSplit b '.').map verNum with hlb
  set lc := (goSplit c '.').map verNum with hlc
  set n := max (max la.length lb.length) lc.length with hn
  have hna : la.length ≤ n := (le_max_left _ _).trans (le_max_left _ _)
  have hnb : lb.length ≤ n := (le_max_right _ _).trans (le_max_left _ _)
  have hnc : lc.length ≤ n := le_max_right _ _
  have h1 : cmpParts (la ++ List.replicate (n - la.length) 0)
      (lb ++ List.replicate (n - lb.length) 0) = -1 := by
    rw [cmpParts_pad_left, cmpParts_pad_right]; exact hab
  have h2 : cmpParts (lb ++ List.replicate (n - lb.length) 0)
      (lc ++ List.replicate (n - lc.length) 0) = -1 := by
    rw [cmpParts_pad_left, cmpParts_pad_right]; exact hbc
  have h3 := cmpParts_trans_aux _ _ _
    (by simp [List.length_append, List.length_replicate]; omega)
    (by simp [List.length_append, List.length_replicate]; omega) h1 h2
  rwa [cmpParts_pad_left, cmpParts_pad_right] at h3

/-- C4: compareVersions is a total order over version strings: every pair
compares to exactly one of -1, 0, 1 (the value is a single integer, so the
three listed outcomes are mutually exclusive), strictly-less is transitive,
and every string compares equal to itself. -/
theorem c4_compareVersions_total_order :
    (∀ a b : String, compareVersions a b = -1 ∨ compareVersions a b = 0 ∨
      compareVersions a b = 1) ∧
    (∀ a b c : String, compareVersions a b = -1 → compareVersions b c = -1 →
      compareVersions a c = -1) ∧
    (∀ a : String, compareVersions a a = 0) :=
  ⟨fun _ _ => cmpParts_values _ _, compareVersions_trans, fun _ => cmpParts_self _⟩

/-- Witness for C4: transitivity applied at 1.0 < 1.5 < 2.0. -/
theorem c4_compareVersions_witness :
    compareVersions "1.0" "1.5" = -1 ∧ compareVersions "1.5" "2.0" = -1 ∧
    compareVersions "1.0" "2.0" = -1 :=
  ⟨by decide, by decide,
   c4_compareVersions_total_order.2.1 "1.0" "1.5" "2.0" (by decide) (by decide)⟩

/- C6 and C9: state effects of installation and removal. -/

/-- A freshly inserted record is found under its own name. -/
theorem lookupRecord_insertRecord (l : List InstalledPackage) (r : InstalledPackage) :
    lookupRecord (insertRecord l r) r.Name = some r := by
  simp [lookupRecord, insertRecord, List.find?]

/-- A failed install leaves the ledger and the in-memory map untouched. -/
theorem install_error_state (saveOk : Bool) (entries : List TarEntry)
    (opts : InstallOptions) (s s1 : Sys) (e : String)
    (h : InstallWithOptions saveOk entries opts s = (s1, .error e)) :
    s1.ledger = s.ledger ∧ s1.mgr = s.mgr := by
  cases hloop : installLoop opts entries { Name := "", Version := "" } "" [] s.fs with
  | error p =>
    obtain ⟨msg, fs1⟩ := p
    simp [InstallWithOptions, hloop] at h
    obtain ⟨h1, _⟩ := h
    subst h1
    exact ⟨rfl, rfl⟩
  | ok q =>
    obtain ⟨info, sourceSlot, files, fs1⟩ := q
    by_cases hs : saveOk = true
    · subst hs
      simp [InstallWithOptions, hloop] at h
    · have hs' : saveOk = false := by simpa using hs
      subst hs'
      simp [InstallWithOptions, hloop] at h
      obtain ⟨h1, _⟩ := h
      subst h1
      exact ⟨rfl, rfl⟩

/-- A successful install means the whole entry loop and the ledger write
succeeded, and the returned record was inserted into both the ledger and
the in-memory map. -/
theorem install_ok_state (saveOk : Bool) (entries : List TarEntry)
    (opts : InstallOptions) (s s1 : Sys) (record : InstalledPackage)
    (h : InstallWithOptions saveOk entries opts s = (s1, .ok record)) :
    saveOk = true ∧
    s1.ledger = insertRecord s.ledger record ∧
    s1.mgr.installed = insertRecord s.mgr.installed record ∧
    ∃ info sourceSlot files,
      installLoop opts entries { Name := "", Version := "" } "" [] s.fs =
        .ok (info, sourceSlot, files, s1.fs) ∧ record.InstalledFiles = files := by
  cases hloop : installLoop opts entries { Name := "", Version := "" } "" [] s.fs with
  | error p =>
    obtain ⟨msg, fs1⟩ := p
    simp [InstallWithOptions, hloop] at h
  | ok q =>
    obtain ⟨info, sourceSlot, files, fs1⟩ := q
    by_cases hs : saveOk = true
    · subst hs
      simp [InstallWithOptions, hloop] at h
      obtain ⟨h1, h2⟩ := h
      subst h1
      subst h2
      exact ⟨rfl, rfl, rfl, info, sourceSlot, files, rfl, rfl⟩
    · have hs' : saveOk = false := by simpa using hs
      subst hs'
      simp [InstallWithOptions, hloop] at h

/-- A removal that finds its record reports no error, leaves none of the
recorded files on disk, and deletes the ledger record and the map entry. -/
theorem remove_ok (s : Sys) (name : String) (record : InstalledPackage)
    (h : GetInstalled s.mgr name = some record) :
    (Remove s name).2 = none ∧
    (∀ f ∈ record.InstalledFiles, ¬ f ∈ (Remove s name).1.fs) ∧
    lookupRecord (Remove s name).1.ledger name = none ∧
    GetInstalled (Remove s name).1.mgr name = none := by
  refine ⟨by simp [Remove, h], ?_, ?_, ?_⟩
  · intro f hf
    simp [Remove, h, List.mem_filter, hf]
  · simp only [Remove, h]
    simp [lookupRecord, List.find?_eq_none, List.mem_filter]
  · simp only [Remove, h]
    simp [GetInstalled, List.find?_eq_none, List.mem_filter]

/-- C6: remove fails exactly when there is no record for the name; on
success it reports no error, deletes every recorded file and the record
itself, and after installing a package, removing it by its recorded name
leaves every path of its InstalledFiles list absent. -/
theorem c6_remove_spec (s : Sys) (name : String) :
    ((Remove s name).2.isSome ↔ GetInstalled s.mgr name = none) ∧
    (∀ record, GetInstalled s.mgr name = some record →
      (Remove s name).2 = none ∧
      (∀ f ∈ record.InstalledFiles, ¬ f ∈ (Remove s name).1.fs) ∧
      lookupRecord (Remove s name).1.ledger name = none ∧
      GetInstalled (Remove s name).1.mgr name = none) ∧
    (∀ saveOk entries opts s1 record,
      InstallWithOptions saveOk entries opts s = (s1, .ok record) →
      (Remove s1 record.Name).2 = none ∧
      ∀ f ∈ record.InstalledFiles, ¬ f ∈ (Remove s1 record.Name).1.fs) := by
  refine ⟨?_, ?_, ?_⟩
  · cases h : GetInstalled s.mgr name <;> simp [Remove, h]
  · intro record h
    exact remove_ok s name record h
  · intro saveOk entries opts s1 record h
    obtain ⟨hsave, hledger, hmgr, info, sourceSlot, files, hloop, hfiles⟩ :=
      install_ok_state saveOk entries opts s s1 record h
    have hget : GetInstalled s1.mgr record.Name = some record := by
      show lookupRecord s1.mgr.installed record.Name = some record
      rw [hmgr]
      exact lookupRecord_insertRecord _ _
    obtain ⟨h1, h2, _, _⟩ := remove_ok s1 record.Name record hget
    exact ⟨h1, h2⟩

/-- A two-entry archive for php8.5-cli 8.5.0 carrying one file. -/
def demoEntries : List TarEntry :=
  [.manifest (some { Name := "php8.5-cli", Version := "8.5.0" }),
   .item "files/opt/php/8.5/bin/php" false true]

/-- The record that installing demoEntries produces. -/
def demoCliRecord : InstalledPackage :=
  { toPackage := { Name := "php8.5-cli", Version := "8.5.0" }
    InstalledFiles := ["/opt/php/8.5/bin/php"]
    InstallSlot := "8.5" }

/-- The state after installing demoEntries on an empty host. -/
def demoInstalledSys : Sys :=
  { fs := ["/opt/php/8.5/bin/php"]
    ledger := [demoCliRecord]
    mgr := { installed := [demoCliRecord] } }

/-- Witness for C6: install then remove on a concrete archive leaves every
recorded path absent. -/
theorem c6_remove_spec_witness :
    (Remove demoInstalledSys demoCliRecord.Name).2 = none ∧
    ∀ f ∈ demoCliRecord.InstalledFiles,
      ¬ f ∈ (Remove demoInstalledSys demoCliRecord.Name).1.fs :=
  (c6_remove_spec {} "php8.5-cli").2.2 true demoEntries {} demoInstalledSys demoCliRecord rfl

/-- C9: an install that returns an error leaves the ledger and the
in-memory installed map exactly as they were (only file writes it had
already performed remain); a successful install implies the ledger write
succeeded and completed only after every entry was processed, and the
returned record is registered in both the ledger and the map. -/
theorem c9_install_atomicity (saveOk : Bool) (entries : List TarEntry)
    (opts : InstallOptions) (s : Sys) :
    (∀ s1 e, InstallWithOptions saveOk entries opts s = (s1, .error e) →
      s1.ledger = s.ledger ∧ s1.mgr = s.mgr) ∧
    (∀ s1 record, InstallWithOptions saveOk entries opts s = (s1, .ok record) →
      saveOk = true ∧
      (∃ info sourceSlot files,
        installLoop opts entries { Name := "", Version := "" } "" [] s.fs =
          .ok (info, sourceSlot, files, s1.fs) ∧ record.InstalledFiles = files) ∧
      lookupRecord s1.ledger record.Name = some record ∧
      GetInstalled s1.mgr record.Name = some record) := by
  constructor
  · intro s1 e h
    exact install_error_state saveOk entries opts s s1 e h
  · intro s1 record h
    obtain ⟨hsave, hledger, hmgr, info, sourceSlot, files, hloop, hfiles⟩ :=
      install_ok_state saveOk entries opts s s1 record h
    refine ⟨hsave, ⟨info, sourceSlot, files, hloop, hfiles⟩, ?_, ?_⟩
    · rw [hledger]
      exact lookupRecord_insertRecord _ _
    · show lookupRecord s1.mgr.installed record.Name = some record
      rw [hmgr]
      exact lookupRecord_insertRecord _ _

/-- An archive whose second file write fails after the first succeeded. -/
def failEntries : List TarEntry :=
  [.manifest (some { Name := "php8.5-cli", Version := "8.5.0" }),
   .item "files/opt/php/8.5/bin/php" false true,
   .item "files/opt/php/8.5/bin/phpize" false false]

/-- A host that already has one pinned package installed. -/
def preSys : Sys :=
  { ledger := [cliPinnedInstalled], mgr := { installed := [cliPinnedInstalled] } }

/-- The state after the failed install of failEntries on preSys: the first
file was written, the ledger and map were not touched. -/
def failSys : Sys :=
  { fs := ["/opt/php/8.5/bin/php"]
    ledger := [cliPinnedInstalled]
    mgr := { installed := [cliPinnedInstalled] } }

/-- Witness for C9: the concrete failed install leaves ledger and map
unchanged. -/
theorem c9_install_atomicity_witness :
    failSys.ledger = preSys.ledger ∧ failSys.mgr = preSys.mgr :=
  (c9_install_atomicity true failEntries {} preSys).1 failSys
    "failed to install /opt/php/8.5/bin/phpize" rfl

/-- Swapping the one-sided comparisons negates the result. -/
theorem cmpZero_swap (l : List Int) : cmpZeroR l = - cmpZeroL l := by
  induction l with
  | nil => rfl
  | cons x xs ih =>
    simp only [cmpZeroR, cmpZeroL]
    split_ifs <;> omega

/-- Swapping the operands of cmpParts negates the result. -/
theorem cmpParts_swap : ∀ xs ys : List Int, cmpParts xs ys = - cmpParts ys xs := by
  intro xs
  induction xs with
  | nil =>
    intro ys
    cases ys with
    | nil => rfl
    | cons y ys =>
      show cmpZeroR (y :: ys) = - cmpZeroL (y :: ys)
      exact cmpZero_swap (y :: ys)
  | cons x xs ih =>
    intro ys
    cases ys with
    | nil =>
      show cmpZeroL (x :: xs) = - cmpZeroR (x :: xs)
      rw [cmpZero_swap (x :: xs)]
      omega
    | cons y ys =>
      have h := ih ys
      simp only [cmpParts]
      split_ifs <;> omega

/-- Two component lists of equal length comparing equal are equal. -/
theorem cmpParts_zero_eq : ∀ xs ys : List Int, xs.length = ys.length →
    cmpParts xs ys = 0 → xs = ys := by
  intro xs
  induction xs with
  | nil =>
    intro ys h _
    cases ys with
    | nil => rfl
    | cons y ys => simp at h
  | cons x xs ih =>
    intro ys h h0
    cases ys with
    | nil => simp at h
    | cons y ys =>
      simp only [cmpParts] at h0
      by_cases h1 : x < y
      · rw [if_pos h1] at h0
        exact absurd h0 (by decide)
      · rw [if_neg h1] at h0
        by_cases h2 : y < x
        · rw [if_pos h2] at h0
          exact absurd h0 (by decide)
        · rw [if_neg h2] at h0
          have hxy : x = y := le_antisymm (not_lt.mp h2) (not_lt.mp h1)
          have hxs : xs = ys := ih ys (by simpa using h) h0
          rw [hxy, hxs]

/-- compareVersions only produces -1, 0 or 1. -/
theorem compareVersions_values (a b : String) :
    compareVersions a b = -1 ∨ compareVersions a b = 0 ∨ compareVersions a b = 1 :=
  cmpParts_values _ _

/-- Swapping the operands of compareVersions negates the result. -/
theorem compareVersions_swap (a b : String) :
    compareVersions a b = - compareVersions b a :=
  cmpParts_swap _ _

/-- Strings comparing equal compare identically against any third string. -/
theorem compareVersions_zero_trans (a b c : String) (h0 : compareVersions a b = 0) :
    compareVersions b c = compareVersions a c := by
  simp only [compareVersions] at h0 ⊢
  set la := (goSplit a '.').map verNum with hla
  set lb := (goSplit b '.').map verNum with hlb
  set lc := (goSplit c '.').map verNum with hlc
  set n := max (max la.length lb.length) lc.length with hn
  have hna : la.length ≤ n := (le_max_left _ _).trans (le_max_left _ _)
  have hnb : lb.length ≤ n := (le_max_right _ _).trans (le_max_left _ _)
  have hnc : lc.length ≤ n := le_max_right _ _
  have hA : cmpParts (la ++ List.replicate (n - la.length) 0)
      (lb ++ List.replicate (n - lb.length) 0) = 0 := by
    rw [cmpParts_pad_left, cmpParts_pad_right]; exact h0
  have hEq : la ++ List.replicate (n - la.length) 0 =
      lb ++ List.replicate (n - lb.length) 0 :=
    cmpParts_zero_eq _ _ (by simp [List.length_append, List.length_replicate]; omega) hA
  calc cmpParts lb lc
      = cmpParts (lb ++ List.replicate (n - lb.length) 0)
          (lc ++ List.replicate (n - lc.length) 0) := by
        rw [cmpParts_pad_left, cmpParts_pad_right]
    _ = cmpParts (la ++ List.replicate (n - la.length) 0)
          (lc ++ List.replicate (n - lc.length) 0) := by rw [hEq]
    _ = cmpParts la lc := by rw [cmpParts_pad_left, cmpParts_pad_right]

/-- At-most-equal followed by strictly-less is strictly-less. -/
theorem compareVersions_le_lt_trans (a b c : String)
    (h1 : compareVersions a b ≤ 0) (h2 : compareVersions b c = -1) :
    compareVersions a c = -1 := by
  rcases compareVersions_values a b with h | h | h
  · exact compareVersions_trans a b c h h2
  · rw [← compareVersions_zero_trans a b c h]
    exact h2
  · rw [h] at h1
    exact absurd h1 (by decide)

/-- A strictly greater reverse comparison means strictly less forward. -/
theorem compareVersions_swap_pos (a b : String) (h : 0 < compareVersions b a) :
    compareVersions a b = -1 := by
  rcases compareVersions_values b a with h1 | h1 | h1
  · rw [h1] at h
    exact absurd h (by decide)
  · rw [h1] at h
    exact absurd h (by decide)
  · rw [compareVersions_swap a b, h1]



/-- Invariant of the GetPackage scan once an entry is held: the scan
returns a named entry that every matching entry before it compares
strictly below and every matching entry after it compares at most equal
to, so the first version-maximal entry wins. -/
theorem getPackage_fold_some (name : String) :
    ∀ (l : List Package) (a : Package), a.Name = name →
    ∃ p, l.foldl (gpStep name) (some a) = some p ∧ p.Name = name ∧
      ((p = a ∧ ∀ q ∈ l, q.Name = name → compareVersions q.Version p.Version ≤ 0) ∨
       (∃ l1 l2, l = l1 ++ p :: l2 ∧ compareVersions a.Version p.Version = -1 ∧
         (∀ q ∈ l1, q.Name = name → compareVersions q.Version p.Version = -1) ∧
         (∀ q ∈ l2, q.Name = name → compareVersions q.Version p.Version ≤ 0))) := by
  intro l
  induction l with
  | nil =>
    intro a ha
    exact ⟨a, rfl, ha, Or.inl ⟨rfl, by simp⟩⟩
  | cons r rest ih =>
    intro a ha
    by_cases hr : r.Name = name
    · by_cases hcmp : 0 < CompareVersions r.Version a.Version
      · have hstep : gpStep name (some a) r = some r := by
          simp [gpStep, hr, hcmp]
        have har : compareVersions a.Version r.Version = -1 :=
          compareVersions_swap_pos a.Version r.Version hcmp
        obtain ⟨p, hp, hpname, hdisj⟩ := ih r hr
        refine ⟨p, by rw [List.foldl_cons, hstep]; exact hp, hpname, Or.inr ?_⟩
        rcases hdisj with ⟨hpr, hrest⟩ | ⟨l1, l2, hsplit, hrp, hl1, hl2⟩
        · refine ⟨[], rest, by rw [hpr]; rfl, hpr ▸ har, by simp, hrest⟩
        · refine ⟨r :: l1, l2, by rw [hsplit]; rfl, compareVersions_trans _ _ _ har hrp, ?_, hl2⟩
          intro q hq hqname
          rcases List.mem_cons.mp hq with hq | hq
          · rw [hq]
            exact hrp
          · exact hl1 q hq hqname
      · have hstep : gpStep name (some a) r = some a := by
          simp [gpStep, hr, hcmp]
        have hra : compareVersions r.Version a.Version ≤ 0 := by
          have := not_lt.mp hcmp
          exact this
        obtain ⟨p, hp, hpname, hdisj⟩ := ih a ha
        refine ⟨p, by rw [List.foldl_cons, hstep]; exact hp, hpname, ?_⟩
        rcases hdisj with ⟨hpa, hrest⟩ | ⟨l1, l2, hsplit, hap, hl1, hl2⟩
        · refine Or.inl ⟨hpa, ?_⟩
          intro q hq hqname
          rcases List.mem_cons.mp hq with hq | hq
          · rw [hq, hpa]
            exact hra
          · exact hrest q hq hqname
        · refine Or.inr ⟨r :: l1, l2, by rw [hsplit]; rfl, hap, ?_, hl2⟩
          intro q hq hqname
          rcases List.mem_cons.mp hq with hq | hq
          · rw [hq]
            exact compareVersions_le_lt_trans _ _ _ hra hap
          · exact hl1 q hq hqname
    · have hstep : gpStep name (some a) r = some a := by
        simp [gpStep, hr]
      obtain ⟨p, hp, hpname, hdisj⟩ := ih a ha
      refine ⟨p, by rw [List.foldl_cons, hstep]; exact hp, hpname, ?_⟩
      rcases hdisj with ⟨hpa, hrest⟩ | ⟨l1, l2, hsplit, hap, hl1, hl2⟩
      · refine Or.inl ⟨hpa, ?_⟩
        intro q hq hqname
        rcases List.mem_cons.mp hq with hq | hq
        · exact absurd (hq ▸ hqname) hr
        · exact hrest q hq hqname
      · refine Or.inr ⟨r :: l1, l2, by rw [hsplit]; rfl, hap, ?_, hl2⟩
        intro q hq hqname
        rcases List.mem_cons.mp hq with hq | hq
        · exact absurd (hq ▸ hqname) hr
        · exact hl1 q hq hqname

/-- C8 (amended): getPackage returns none exactly when no entry has the
name; otherwise it returns the first entry in catalog order whose version
is maximal under compareVersions: every earlier same-named entry compares
strictly below it and every later one compares at most equal. The revision
field is never consulted. -/
theorem c8_getPackage_amended (packages : List Package) (name : String) :
    (GetPackage packages name = none ↔ ∀ q ∈ packages, q.Name ≠ name) ∧
    (∀ p, GetPackage packages name = some p →
      p.Name = name ∧
      ∃ l1 l2, packages = l1 ++ p :: l2 ∧
        (∀ q ∈ l1, q.Name = name → compareVersions q.Version p.Version = -1) ∧
        (∀ q ∈ l2, q.Name = name → compareVersions q.Version p.Version ≤ 0)) := by
  induction packages with
  | nil =>
    constructor
    · simp [GetPackage]
    · intro p h
      simp [GetPackage] at h
  | cons r rest ih =>
    by_cases hr : r.Name = name
    · have hstep : gpStep name none r = some r := by simp [gpStep, hr]
      have hfold : GetPackage (r :: rest) name = rest.foldl (gpStep name) (some r) := by
        simp only [GetPackage, List.foldl_cons, hstep]
      obtain ⟨p, hp, hpname, hdisj⟩ := getPackage_fold_some name rest r hr
      constructor
      · constructor
        · intro hnone
          rw [hfold, hp] at hnone
          cases hnone
        · intro hall
          exact absurd hr (hall r (by simp))
      · intro p' hp'
        rw [hfold, hp] at hp'
        have hpe : p = p' := by injection hp'
        subst hpe
        refine ⟨hpname, ?_⟩
        rcases hdisj with ⟨hpr, hrest⟩ | ⟨l1, l2, hsplit, hrp, hl1, hl2⟩
        · exact ⟨[], rest, by rw [hpr]; rfl, by simp, hrest⟩
        · refine ⟨r :: l1, l2, by rw [hsplit]; rfl, ?_, hl2⟩
          intro q hq hqname
          rcases List.mem_cons.mp hq with hq | hq
          · rw [hq]
            exact hrp
          · exact hl1 q hq hqname
    · have hstep : gpStep name none r = none := by simp [gpStep, hr]
      have heq : GetPackage (r :: rest) name = GetPackage rest name := by
        simp only [GetPackage, List.foldl_cons, hstep]
      obtain ⟨ihiff, ihsome⟩ := ih
      constructor
      · rw [heq]
        constructor
        · intro hn q hq
          rcases List.mem_cons.mp hq with hq | hq
          · rw [hq]
            exact hr
          · exact ihiff.mp hn q hq
        · intro hall
          exact ihiff.mpr (fun q hq => hall q (List.mem_cons_of_mem r hq))
      · intro p hp
        rw [heq] at hp
        obtain ⟨hpname, l1, l2, hsplit, hl1, hl2⟩ := ihsome p hp
        refine ⟨hpname, r :: l1, l2, by rw [hsplit]; rfl, ?_, hl2⟩
        intro q hq hqname
        rcases List.mem_cons.mp hq with hq | hq
        · exact absurd (hq ▸ hqname) hr
        · exact hl1 q hq hqname

/-- Two catalog revisions of one package sharing name and version. -/
def dupRev1 : Package := { Name := "a", Version := "1.0", Revision := 1 }

/-- The newer revision of the same entry. -/
def dupRev2 : Package := { Name := "a", Version := "1.0", Revision := 2 }

/-- C8 counterexample: with two entries of equal (highest) version and
revisions 1 and 2 in catalog order, getPackage returns the revision-1
entry, not the highest-revision one as the claim states. -/
theorem c8_getPackage_counterexample :
    dupRev1.Name = "a" ∧ dupRev2.Name = "a" ∧ dupRev2.Version = dupRev1.Version ∧
    dupRev1.Revision < dupRev2.Revision ∧
    GetPackage [dupRev1, dupRev2] "a" = some dupRev1 ∧
    GetPackage [dupRev1, dupRev2] "a" ≠ some dupRev2 :=
  ⟨rfl, rfl, rfl, by decide, rfl, by decide⟩

/-- Witness for the amended C8 at the two-revision catalog. -/
theorem c8_getPackage_amended_witness :
    dupRev1.Name = "a" ∧
    ∃ l1 l2, [dupRev1, dupRev2] = l1 ++ dupRev1 :: l2 ∧
      (∀ q ∈ l1, q.Name = "a" → compareVersions q.Version dupRev1.Version = -1) ∧
      (∀ q ∈ l2, q.Name = "a" → compareVersions q.Version dupRev1.Version ≤ 0) :=
  (c8_getPackage_amended [dupRev1, dupRev2] "a").2 dupRev1 rfl


/- C2: handling of dependencies whose name is already installed. -/

/-- A dependency whose installed package satisfies its constraint is
skipped: the loop continues with the remaining constraints on an unchanged
state, so that dependency adds nothing to the plan. -/
theorem resolveDeps_skip (m : Manager) (available : List Package)
    (go : Package → RState → Except String RState)
    (depStr : String) (rest : List String) (st : RState) (inst : InstalledPackage)
    (h1 : GetInstalled m (ParseDependency depStr).Name = some inst)
    (h2 : versionSatisfies inst.Version (ParseDependency depStr).Constraint
      (ParseDependency depStr).Version = true) :
    resolveDeps m available go (depStr :: rest) st =
      resolveDeps m available go rest st := by
  simp only [resolveDeps, h1, h2, if_true]

/-- Every error the dependency loop produces is either the fuel marker of
the embedded resolver (a dependency cycle, on which the Go original would
not terminate) or a dependency-not-found error naming a package absent
from the catalog. -/
theorem resolveDeps_error_char (m : Manager) (available : List Package)
    (go : Package → RState → Except String RState)
    (hgo : ∀ q st1 e, go q st1 = .error e →
      e = "dependency cycle" ∨
      ∃ n, e = "dependency not found: " ++ n ∧ findPkg available n = none) :
    ∀ (deps : List String) (st : RState) (e : String),
      resolveDeps m available go deps st = .error e →
      e = "dependency cycle" ∨
      ∃ n, e = "dependency not found: " ++ n ∧ findPkg available n = none := by
  intro deps
  induction deps with
  | nil =>
    intro st e h
    simp [resolveDeps] at h
  | cons d rest ih =>
    intro st e h
    cases hgi : GetInstalled m (ParseDependency d).Name with
    | some inst =>
      by_cases hvs : versionSatisfies inst.Version (ParseDependency d).Constraint
          (ParseDependency d).Version = true
      · rw [resolveDeps_skip m available go d rest st inst hgi hvs] at h
        exact ih st e h
      · cases hfp : findPkg available (ParseDependency d).Name with
        | none =>
          simp only [resolveDeps, hgi, hvs, hfp] at h
          simp at h
          exact Or.inr ⟨(ParseDependency d).Name, h.symm, hfp⟩
        | some q =>
          simp only [resolveDeps, hgi, hvs, hfp] at h
          cases hq : go q st with
          | error e0 =>
            rw [hq] at h
            simp at h
            exact h ▸ hgo q st e0 hq
          | ok st1 =>
            rw [hq] at h
            exact ih st1 e h
    | none =>
      cases hfp : findPkg available (ParseDependency d).Name with
      | none =>
        simp only [resolveDeps, hgi, hfp] at h
        simp at h
        exact Or.inr ⟨(ParseDependency d).Name, h.symm, hfp⟩
      | some q =>
        simp only [resolveDeps, hgi, hfp] at h
        cases hq : go q st with
        | error e0 =>
          rw [hq] at h
          simp at h
          exact h ▸ hgo q st e0 hq
        | ok st1 =>
          rw [hq] at h
          exact ih st1 e h

/-- The same error characterisation for the recursive resolve closure. -/
theorem resolveGo_error_char (m : Manager) (available : List Package) :
    ∀ (fuel : Nat) (p : Package) (st : RState) (e : String),
      resolveGo m available fuel p st = .error e →
      e = "dependency cycle" ∨
      ∃ n, e = "dependency not found: " ++ n ∧ findPkg available n = none := by
  intro fuel
  induction fuel with
  | zero =>
    intro p st e h
    simp [resolveGo] at h
    exact Or.inl h.symm
  | succ fuel ih =>
    intro p st e h
    by_cases hres : st.resolved.contains p.Name
    · have hmem : p.Name ∈ st.resolved := by simpa using hres
      simp [resolveGo, hmem] at h
    · simp only [resolveGo, hres, Bool.false_eq_true, if_false] at h
      cases hd : resolveDeps m available (resolveGo m available fuel) p.Depends st with
      | error e0 =>
        rw [hd] at h
        simp at h
        exact h ▸ resolveDeps_error_char m available _ (fun q st1 e1 => ih q st1 e1)
          p.Depends st e0 hd
      | ok st1 =>
        rw [hd] at h
        simp at h

/-- When ResolveDependencies fails with a dependency-not-found error
naming n, the catalog really has no entry named n (hence in particular no
qualifying one). -/
theorem resolveDependencies_notfound (m : Manager) (pkg : Package)
    (available : List Package) (n : String)
    (h : ResolveDependencies m pkg available = .error ("dependency not found: " ++ n)) :
    findPkg available n = none := by
  simp only [ResolveDependencies] at h
  cases hr : resolveGo m available (available.length + 1) pkg {} with
  | error e =>
    rw [hr] at h
    simp at h
    rcases resolveGo_error_char m available _ pkg {} e hr with hc | ⟨n1, hn1, hfp⟩
    · rw [hc] at h
      have hlen := congrArg String.length h
      rw [String.length_append] at hlen
      have h22 : ("dependency not found: ").length = 22 := rfl
      have h16 : ("dependency cycle").length = 16 := rfl
      omega
    · rw [hn1] at h
      have hdata : ("dependency not found: ").data ++ n1.data =
          ("dependency not found: ").data ++ n.data := by
        simpa [String.data_append] using congrArg String.data h
      have : n1 = n := String.ext (List.append_cancel_left hdata)
      rw [← this]
      exact hfp
  | ok st =>
    rw [hr] at h
    simp at h



/-- Package A installed at version 2.0. -/
def instA2 : InstalledPackage := { toPackage := { Name := "A", Version := "2.0" } }

/-- A manager with only A at 2.0 installed. -/
def mgrA2 : Manager := { installed := [instA2] }

/-- Catalog entry A at 3.0. -/
def pkgA3 : Package := { Name := "A", Version := "3.0" }

/-- B depending on A at 1.0 or newer. -/
def pkgBLo : Package := { Name := "B", Version := "1.0", Depends := ["A (>= 1.0)"] }

/-- B depending on A at 3.0 or newer. -/
def pkgBHi : Package := { Name := "B", Version := "1.0", Depends := ["A (>= 3.0)"] }

/-- C2: a dependency already installed with a satisfying version is
skipped and adds nothing to the plan; a missing-dependency failure can
only name a package with no catalog entry at all (so with A at 2.0
installed and B requiring A at 3.0 or newer, resolution fails only when no
qualifying A exists in the catalog); with A at 3.0 in the catalog,
resolution adds it to the plan. -/
theorem c2_installed_dependency_handling :
    (∀ (m : Manager) (available : List Package)
      (go : Package → RState → Except String RState)
      (depStr : String) (rest : List String) (st : RState) (inst : InstalledPackage),
      GetInstalled m (ParseDependency depStr).Name = some inst →
      versionSatisfies inst.Version (ParseDependency depStr).Constraint
        (ParseDependency depStr).Version = true →
      resolveDeps m available go (depStr :: rest) st =
        resolveDeps m available go rest st) ∧
    (∀ (m : Manager) (pkg : Package) (available : List Package) (n : String),
      ResolveDependencies m pkg available = .error ("dependency not found: " ++ n) →
      findPkg available n = none) ∧
    ResolveDependencies mgrA2 pkgBLo [pkgA3, pkgBLo] = .ok [pkgBLo] ∧
    ResolveDependencies mgrA2 pkgBHi [pkgBHi] = .error "dependency not found: A" ∧
    ResolveDependencies mgrA2 pkgBHi [pkgA3, pkgBHi] = .ok [pkgA3, pkgBHi] :=
  ⟨resolveDeps_skip, resolveDependencies_notfound, rfl, rfl, rfl⟩

/-- Witness for C2: the satisfied dependency of B on A is skipped on the
concrete manager, and the concrete failing resolution names a package
absent from the catalog. -/
theorem c2_installed_dependency_witness :
    resolveDeps mgrA2 [pkgA3] (resolveGo mgrA2 [pkgA3] 1) ["A (>= 1.0)"] {} =
      resolveDeps mgrA2 [pkgA3] (resolveGo mgrA2 [pkgA3] 1) [] {} ∧
    findPkg [pkgBHi] "A" = none :=
  ⟨c2_installed_dependency_handling.1 mgrA2 [pkgA3] (resolveGo mgrA2 [pkgA3] 1)
      "A (>= 1.0)" [] {} instA2 rfl (by decide),
   c2_installed_dependency_handling.2.1 mgrA2 pkgBHi [pkgBHi] "A" rfl⟩


/- C1: dependency resolution on acyclic graphs. Reachability in the
dependency graph induced by the catalog: an edge leads from a package to
the first catalog entry named by each of its dependency strings. -/

/-- Reachability along catalog-resolved dependency edges. -/
inductive Reaches (available : List Package) : Package → Package → Prop
  | refl (p : Package) : Reaches available p p
  | step (p : Package) (d : String) (q r : Package) :
      d ∈ p.Depends →
      findPkg available (ParseDependency d).Name = some q →
      Reaches available q r →
      Reaches available p r

/-- findPkg returns a catalog member. -/
theorem findPkg_mem {available : List Package} {n : String} {q : Package}
    (h : findPkg available n = some q) : q ∈ available :=
  List.mem_of_find?_eq_some h

/-- findPkg returns an entry of the requested name. -/
theorem findPkg_name {available : List Package} {n : String} {q : Package}
    (h : findPkg available n = some q) : q.Name = n := by
  have := List.find?_some h
  simpa using this

/-- Everything reachable from a catalog entry is a catalog entry. -/
theorem reaches_mem {available : List Package} {p r : Package}
    (h : Reaches available p r) (hp : p ∈ available) : r ∈ available := by
  induction h with
  | refl p => exact hp
  | step p d q r hd hq hqr ih => exact ih (findPkg_mem hq)

/-- Under a rank certificate, reachability never increases the rank. -/
theorem reaches_rank_le {available : List Package} {rank : String → Nat}
    (hrank : ∀ p ∈ available, ∀ d ∈ p.Depends, ∀ q,
      findPkg available (ParseDependency d).Name = some q → rank q.Name < rank p.Name)
    {p r : Package} (h : Reaches available p r) (hp : p ∈ available) :
    rank r.Name ≤ rank p.Name := by
  induction h with
  | refl p => exact le_refl _
  | step p d q r hd hq hqr ih =>
    have h1 : rank q.Name < rank p.Name := hrank p hp d hd q hq
    exact le_trans (ih (findPkg_mem hq)) (le_of_lt h1)

/-- With no duplicate names, catalog entries are determined by name. -/
theorem name_inj {available : List Package}
    (hnodup : (available.map Package.Name).Nodup) {p q : Package}
    (hp : p ∈ available) (hq : q ∈ available) (h : p.Name = q.Name) : p = q :=
  List.inj_on_of_nodup_map hnodup hp hq h

/-- Decompose a split of a list with one appended element. -/
theorem split_concat {α : Type} {l1 l2 res : List α} {p q : α}
    (h : l1 ++ p :: l2 = res ++ [q]) :
    (l1 = res ∧ p = q ∧ l2 = []) ∨
    (∃ l3, l2 = l3 ++ [q] ∧ res = l1 ++ p :: l3) := by
  rcases List.append_eq_append_iff.mp h with ⟨a, ha1, ha2⟩ | ⟨c, hc1, hc2⟩
  · cases a with
    | nil =>
      simp at ha1 ha2
      exact Or.inl ⟨ha1.symm, ha2.1, ha2.2⟩
    | cons x a =>
      have hx : p = x ∧ l2 = a ++ [q] := by
        have := ha2
        simp at this
        exact ⟨this.1, this.2⟩
      exact Or.inr ⟨a, hx.2, by rw [ha1, hx.1]⟩
  · cases c with
    | nil =>
      simp at hc1 hc2
      exact Or.inl ⟨hc1, hc2.1.symm, hc2.2⟩
    | cons x c =>
      simp at hc2

/-- The invariant the resolver maintains on its state: the resolved set
holds exactly the names of the output (in reverse insertion order), output
entries come from the catalog, no name repeats, every dependency of an
output entry that the catalog resolves appears earlier in the output, and
the output is closed under reachability. -/
def GoodState (available : List Package) (st : RState) : Prop :=
  st.resolved = (st.result.map Package.Name).reverse ∧
  (∀ q ∈ st.result, q ∈ available) ∧
  (st.result.map Package.Name).Nodup ∧
  (∀ l1 p l2, st.result = l1 ++ p :: l2 →
    ∀ d ∈ p.Depends, ∀ q, findPkg available (ParseDependency d).Name = some q → q ∈ l1) ∧
  (∀ p ∈ st.result, ∀ r, Reaches available p r → r ∈ st.result)

/-- The contract of one recursive resolve call at a given fuel level. -/
def GoSpec (available : List Package) (rank : String → Nat)
    (go : Package → RState → Except String RState) (fuel : Nat) : Prop :=
  ∀ q st, q ∈ available → rank q.Name < fuel → GoodState available st →
    ∃ st1, go q st = .ok st1 ∧ GoodState available st1 ∧
      (∃ tail, st1.result = st.result ++ tail ∧ ∀ r ∈ tail, Reaches available q r) ∧
      q ∈ st1.result ∧
      (∀ r, Reaches available q r → r ∈ st1.result)

/-- The empty manager has nothing installed. -/
theorem getInstalled_empty (n : String) : GetInstalled {} n = none := rfl



/-- Soundness of the dependency loop on the empty manager: given a sound
recursive resolver, the loop succeeds, preserves the invariant, extends
the output only with packages reachable from the resolved dependency
entries, and ends with every resolved dependency entry in the output. -/
theorem resolveDeps_sound (available : List Package) (rank : String → Nat)
    (hrank : ∀ p ∈ available, ∀ d ∈ p.Depends, ∀ q,
      findPkg available (ParseDependency d).Name = some q → rank q.Name < rank p.Name)
    (hclosed : ∀ p ∈ available, ∀ d ∈ p.Depends,
      (findPkg available (ParseDependency d).Name).isSome)
    (go : Package → RState → Except String RState) (fuel : Nat)
    (hgo : GoSpec available rank go fuel)
    (p : Package) (hp : p ∈ available) (hpf : rank p.Name ≤ fuel) :
    ∀ (deps : List String), (∀ d ∈ deps, d ∈ p.Depends) →
    ∀ st, GoodState available st →
    ∃ st1, resolveDeps {} available go deps st = .ok st1 ∧ GoodState available st1 ∧
      (∃ tail, st1.result = st.result ++ tail ∧
        ∀ r ∈ tail, ∃ d ∈ deps, ∃ q,
          findPkg available (ParseDependency d).Name = some q ∧ Reaches available q r) ∧
      (∀ d ∈ deps, ∀ q, findPkg available (ParseDependency d).Name = some q →
        q ∈ st1.result) := by
  intro deps
  induction deps with
  | nil =>
    intro _ st hst
    refine ⟨st, rfl, hst, ⟨[], by simp, by simp⟩, by simp⟩
  | cons d rest ih =>
    intro hdeps st hst
    have hd : d ∈ p.Depends := hdeps d (List.mem_cons_self d rest)
    obtain ⟨q, hq⟩ : ∃ q, findPkg available (ParseDependency d).Name = some q := by
      have := hclosed p hp d hd
      exact Option.isSome_iff_exists.mp this
    have hqa : q ∈ available := findPkg_mem hq
    have hqf : rank q.Name < fuel := lt_of_lt_of_le (hrank p hp d hd q hq) hpf
    obtain ⟨st1, hgo1, hgst1, ⟨tail1, htail1, htail1r⟩, hqmem, hqreach⟩ :=
      hgo q st hqa hqf hst
    have hstep : resolveDeps {} available go (d :: rest) st =
        resolveDeps {} available go rest st1 := by
      simp only [resolveDeps, getInstalled_empty, hq, hgo1]
    obtain ⟨st2, hr2, hgst2, ⟨tail2, htail2, htail2r⟩, hrest2⟩ := ih
      (fun d2 hd2 => hdeps d2 (List.mem_cons_of_mem d hd2)) st1 hgst1
    refine ⟨st2, by rw [hstep]; exact hr2, hgst2,
      ⟨tail1 ++ tail2, by rw [htail2, htail1, List.append_assoc], ?_⟩, ?_⟩
    · intro r hr
      rcases List.mem_append.mp hr with hr | hr
      · exact ⟨d, List.mem_cons_self d rest, q, hq, htail1r r hr⟩
      · obtain ⟨d2, hd2, q2, hq2, hre2⟩ := htail2r r hr
        exact ⟨d2, List.mem_cons_of_mem d hd2, q2, hq2, hre2⟩
    · intro d2 hd2 q2 hq2
      rcases List.mem_cons.mp hd2 with hd2 | hd2
      · subst hd2
        rw [hq] at hq2
        have hqq : q = q2 := by injection hq2
        subst hqq
        rw [htail2]
        exact List.mem_append_left _ hqmem
      · exact hrest2 d2 hd2 q2 hq2



/-- Soundness of the recursive resolver on the empty manager, by induction
on fuel: with enough fuel for the rank of the package, resolution
succeeds, preserves the invariant, appends only packages reachable from
the resolved one, and ensures the package itself and everything reachable
from it is in the output. -/
theorem resolveGo_sound (available : List Package) (rank : String → Nat)
    (hnodup : (available.map Package.Name).Nodup)
    (hrank : ∀ p ∈ available, ∀ d ∈ p.Depends, ∀ q,
      findPkg available (ParseDependency d).Name = some q → rank q.Name < rank p.Name)
    (hclosed : ∀ p ∈ available, ∀ d ∈ p.Depends,
      (findPkg available (ParseDependency d).Name).isSome) :
    ∀ fuel : Nat, GoSpec available rank (resolveGo {} available fuel) fuel := by
  intro fuel
  induction fuel with
  | zero =>
    intro q st _ hlt _
    exact absurd hlt (Nat.not_lt_zero _)
  | succ fuel ih =>
    intro q st hqa hlt hst
    obtain ⟨hres_eq, hav, hnd, hord, hcl⟩ := hst
    by_cases hres : st.resolved.contains q.Name = true
    · have hmemname : q.Name ∈ st.resolved := by simpa using hres
      have heq : resolveGo {} available (fuel + 1) q st = .ok st := by
        simp [resolveGo, hmemname]
      rw [hres_eq] at hmemname
      have hex : ∃ q1 ∈ st.result, q1.Name = q.Name := by
        simpa [List.mem_reverse, List.mem_map] using hmemname
      obtain ⟨q1, hq1mem, hq1name⟩ := hex
      have hq1 : q1 = q := name_inj hnodup (hav q1 hq1mem) hqa hq1name
      subst hq1
      exact ⟨st, heq, ⟨hres_eq, hav, hnd, hord, hcl⟩, ⟨[], by simp, by simp⟩,
        hq1mem, fun r hr => hcl _ hq1mem r hr⟩
    · obtain ⟨st1, hdep, hgst1, ⟨tail, htail, htailr⟩, hdepmem⟩ :=
        resolveDeps_sound available rank hrank hclosed
          (resolveGo {} available fuel) fuel ih q hqa (Nat.lt_succ_iff.mp hlt)
          q.Depends (fun d hd => hd) st ⟨hres_eq, hav, hnd, hord, hcl⟩
      have hnotmem : q.Name ∉ st.resolved := by simpa using hres
      have heq : resolveGo {} available (fuel + 1) q st =
          .ok ⟨q.Name :: st1.resolved, st1.result ++ [q]⟩ := by
        simp [resolveGo, hnotmem, hdep]
      obtain ⟨hres_eq1, hav1, hnd1, hord1, hcl1⟩ := hgst1
      have hqnotst : q.Name ∉ st.result.map Package.Name := by
        intro hmem
        apply hres
        have hm2 : q.Name ∈ st.resolved := by
          rw [hres_eq]
          simpa using hmem
        simpa using hm2
      have hqnottail : ∀ r ∈ tail, r.Name ≠ q.Name := by
        intro r hr
        obtain ⟨d, hd, q2, hq2, hre2⟩ := htailr r hr
        have h1 : rank q2.Name < rank q.Name := hrank q hqa d hd q2 hq2
        have h2 : rank r.Name ≤ rank q2.Name :=
          reaches_rank_le hrank hre2 (findPkg_mem hq2)
        intro hname
        rw [hname] at h2
        omega
      have hqnot1 : q.Name ∉ st1.result.map Package.Name := by
        rw [htail]
        simp only [List.map_append, List.mem_append]
        rintro (h | h)
        · exact hqnotst h
        · obtain ⟨r, hr, hrn⟩ := List.mem_map.mp h
          exact hqnottail r hr hrn
      have hreach2 : ∀ r, Reaches available q r → r ∈ st1.result ++ [q] := by
        intro r hr
        cases hr with
        | refl _ => simp
        | step _ d q2 r hd hq2 hre2 =>
          have hq2mem : q2 ∈ st1.result := hdepmem d hd q2 hq2
          exact List.mem_append_left _ (hcl1 q2 hq2mem r hre2)
      refine ⟨⟨q.Name :: st1.resolved, st1.result ++ [q]⟩, heq,
        ⟨?_, ?_, ?_, ?_, ?_⟩, ?_, ?_, ?_⟩
      · show q.Name :: st1.resolved = ((st1.result ++ [q]).map Package.Name).reverse
        simp [List.map_append, List.reverse_append, hres_eq1]
      · intro r hr
        rcases List.mem_append.mp hr with hr | hr
        · exact hav1 r hr
        · simp at hr
          rw [hr]
          exact hqa
      · show ((st1.result ++ [q]).map Package.Name).Nodup
        rw [List.map_append]
        rw [List.nodup_append]
        refine ⟨hnd1, by simp, ?_⟩
        intro a ha hb
        simp at hb
        rw [hb] at ha
        exact hqnot1 ha
      · intro l1 p1 l2 hsplit d hd q2 hq2
        rcases split_concat hsplit.symm with ⟨hl1, hpq, hl2⟩ | ⟨l3, hl2, hsp2⟩
        · subst hpq
          rw [hl1]
          exact hdepmem d hd q2 hq2
        · exact hord1 l1 p1 l3 hsp2 d hd q2 hq2
      · intro p1 hp1 r hr
        rcases List.mem_append.mp hp1 with hp1 | hp1
        · exact List.mem_append_left _ (hcl1 p1 hp1 r hr)
        · simp at hp1
          subst hp1
          exact hreach2 r hr
      · refine ⟨tail ++ [q], ?_, ?_⟩
        · show st1.result ++ [q] = st.result ++ (tail ++ [q])
          rw [htail, List.append_assoc]
        · intro r hr
          rcases List.mem_append.mp hr with hr | hr
          · obtain ⟨d, hd, q2, hq2, hre2⟩ := htailr r hr
            exact Reaches.step q d q2 r hd hq2 hre2
          · simp at hr
            rw [hr]
            exact Reaches.refl q
      · simp
      · exact hreach2



/-- Decidable rank certificate for one dependency edge: the first catalog
entry the dependency resolves to, when there is one, has a strictly
smaller rank. A finite dependency graph is acyclic exactly when such a
ranking bounded by the catalog length exists (a topological index). -/
def depRankOk (available : List Package) (rank : String → Nat)
    (p : Package) (d : String) : Bool :=
  match findPkg available (ParseDependency d).Name with
  | some q => decide (rank q.Name < rank p.Name)
  | none => true

/-- C1: for every acyclic dependency graph given as a catalog (acyclicity
witnessed by a bounded rank certificate, with the target in the catalog,
names unique, and every dependency present), resolveDependencies succeeds
and returns exactly the packages reachable from the target, each exactly
once (no name repeats), in an order where every resolved dependency of an
entry appears before it; and on the concrete three-package catalog it
returns common, cli, redis in that order. -/
theorem c1_resolveDependencies_topological :
    (∀ (available : List Package) (pkg : Package) (rank : String → Nat),
      pkg ∈ available →
      (available.map Package.Name).Nodup →
      (∀ p ∈ available, ∀ d ∈ p.Depends,
        (findPkg available (ParseDependency d).Name).isSome) →
      (∀ p ∈ available, ∀ d ∈ p.Depends, depRankOk available rank p d = true) →
      (∀ p ∈ available, rank p.Name < available.length) →
      ∃ result, ResolveDependencies {} pkg available = .ok result ∧
        (∀ r, r ∈ result ↔ Reaches available pkg r) ∧
        (result.map Package.Name).Nodup ∧
        (∀ l1 p l2, result = l1 ++ p :: l2 →
          ∀ d ∈ p.Depends, ∀ q,
            findPkg available (ParseDependency d).Name = some q → q ∈ l1)) ∧
    ResolveDependencies {} phpRedis demoCatalog = .ok [phpCommon, phpCli, phpRedis] := by
  constructor
  · intro available pkg rank hmem hnodup hclosed hrankm hbound
    have hrank : ∀ p ∈ available, ∀ d ∈ p.Depends, ∀ q,
        findPkg available (ParseDependency d).Name = some q →
        rank q.Name < rank p.Name := by
      intro p hp d hd q hq
      have hm := hrankm p hp d hd
      rw [depRankOk, hq] at hm
      exact of_decide_eq_true hm
    have hgs0 : GoodState available {} := by
      refine ⟨rfl, by simp, by simp, ?_, by simp⟩
      intro l1 p l2 h
      exact absurd h (by simp)
    obtain ⟨st1, hok, hgst1, ⟨tail, htail, htailr⟩, hpkgmem, hreach⟩ :=
      resolveGo_sound available rank hnodup hrank hclosed (available.length + 1)
        pkg {} hmem (Nat.lt_succ_of_lt (hbound pkg hmem)) hgs0
    refine ⟨st1.result, ?_, ?_, hgst1.2.2.1, hgst1.2.2.2.1⟩
    · simp only [ResolveDependencies, hok]
    · intro r
      constructor
      · intro hr
        rw [htail] at hr
        simp at hr
        exact htailr r hr
      · exact hreach r
  · rfl

/-- Witness for C1: the general theorem applied to the concrete
three-package catalog with the evident ranking. -/
theorem c1_resolveDependencies_witness :
    ∃ result, ResolveDependencies {} phpRedis demoCatalog = .ok result ∧
      (∀ r, r ∈ result ↔ Reaches demoCatalog phpRedis r) ∧
      (result.map Package.Name).Nodup ∧
      (∀ l1 p l2, result = l1 ++ p :: l2 →
        ∀ d ∈ p.Depends, ∀ q,
          findPkg demoCatalog (ParseDependency d).Name = some q → q ∈ l1) :=
  c1_resolveDependencies_topological.1 demoCatalog phpRedis
    (fun n => if n = "php8.5-common" then 0 else if n = "php8.5-cli" then 1 else 2)
    (by decide) (by decide) (by decide) (by decide) (by decide)


end Phm
